import Mathlib

/-!
# Verification of the paella-player presentation core

Shallow embedding of the logic in `src/app/components/player/index.tsx` and
`src/app/components/player/Paella.tsx`:

* the delay-until-transition helper `delayTill`,
* the aspect-ratio helper `getPlayerAspectRatio`,
* the placeholder-vs-player render branch of `Player`,
* the playback-offset parser `timeStringToSeconds`,
* the track classification (`isHlsTrack`), the stable master-first sort and
  the source buckets (`tracksToPaellaSources`),
* the kind grouping, duration resolution, caption labelling and main-audio
  marking performed while building the Paella manifest (`PaellaPlayer`).

Timestamps are modelled as integers (milliseconds since the epoch), JS numbers
used as (possibly fractional) second counts as rationals, JS `null`/optional
values as `Option`, and a JS record built by insertion as an insertion-ordered
association list.
-/

namespace PaellaSpec

/-- `Track` from `Paella.tsx` (lines 38–44).  `mimetype`, `resolution` and
`isMaster` are nullable in the source; `resolution` is a nullable array of
numbers. -/
structure Track where
  uri : String
  flavor : String
  mimetype : Option String
  resolution : Option (List Nat)
  isMaster : Option Bool
deriving DecidableEq

/-- `Caption` from `Paella.tsx` (lines 46–49): a URI and a nullable language
tag. -/
structure Caption where
  uri : String
  lang : Option String
deriving DecidableEq

/-! ## `index.tsx`: `delayTill` -/

/-- Embeds `delayTill` (`index.tsx` lines 103–106):
`const raw = date.getTime() - Date.now() + 500; return Math.min(raw, 2_147_483_647);`
with `date.getTime()` and `Date.now()` passed in as integer millisecond
timestamps. -/
def delayTill (date now : Int) : Int :=
  min (date - now + 500) 2147483647

/-! ## `index.tsx`: `getPlayerAspectRatio` -/

/-- Embeds `getPlayerAspectRatio` (`index.tsx` lines 130–136).  The JS
function computes `new Set(tracks.map(t => t.flavor)).size` (the number of
distinct flavors, embedded via `dedup`) and otherwise evaluates
`tracks[0].resolution as [number, number] ?? default_`.  When `tracks` is
empty, `tracks[0]` is `undefined` and accessing `.resolution` on it throws a
`TypeError`; that failure is embedded as `none`. -/
def getPlayerAspectRatio (tracks : List Track) : Option (List Nat) :=
  let flavors := (tracks.map Track.flavor).dedup
  let default_ : List Nat := [16, 9]
  if flavors.length > 1 then
    some default_
  else
    match tracks with
    | [] => none
    | t :: _ => some (t.resolution.getD default_)

/-! ## `index.tsx`: the render branch of `Player` -/

/-- One of `hasStarted` / `hasEnded` as returned by `getEventTimeInfo`:
`true`, `false`, or unknown (the corresponding timestamp was `null`).  The
render branch only ever compares them with `=== false` / `=== true`. -/
inductive TimeFlag
  | yes
  | no
  | unknown
deriving DecidableEq

/-- What the `Player` component renders. -/
inductive PlayerView
  | pendingPlaceholder
  | endedPlaceholder
  | delegatedPlayer
deriving DecidableEq

/-- Embeds the JSX branch of `Player` (`index.tsx` lines 83–93):
`event.isLive && (hasStarted === false || hasEnded === true)` selects the
`LiveEventPlaceholder`, whose mode is `"pending"` if `hasStarted === false`
and `"ended"` otherwise; every other case renders the delegated Paella
player. -/
def renderPlayer (isLive : Bool) (hasStarted hasEnded : TimeFlag) : PlayerView :=
  if isLive = true ∧ (hasStarted = TimeFlag.no ∨ hasEnded = TimeFlag.yes) then
    if hasStarted = TimeFlag.no then PlayerView.pendingPlaceholder
    else PlayerView.endedPlaceholder
  else PlayerView.delegatedPlayer

/-! ## `Paella.tsx`: `timeStringToSeconds`

The source runs `/((\d+)h)?((\d+)m)?((\d+)s)?/.exec(timeString)` and adds
`3600 * group2 + 60 * group4 + group6` (absent groups contributing 0).  The
regex is unanchored and every group is optional, so it matches the empty
string at position 0 of any input; `exec` therefore always succeeds at
position 0.  At that position each optional group `((\d+)X)?` participates
exactly when the maximal digit run at the current position is nonempty and is
immediately followed by the letter `X` (a shorter digit run cannot be used,
since it would have to be followed by a digit, not `X`; and nothing after the
group can force it to be skipped, since the rest of the pattern is optional).
`parseGroup` embeds one such group; `timeStringToSeconds` chains the three
groups over the character list of the input. -/

/-- The numeric value of a decimal digit string, as computed by `parseInt`. -/
def digitsToNat (ds : List Char) : Nat :=
  ds.foldl (fun n c => 10 * n + (c.toNat - 48)) 0

/-- One optional regex group `((\d+)letter)?` matched at the current
position: returns the parsed number and the remaining input when the group
participates, `none` (input unconsumed) otherwise. -/
def parseGroup (letter : Char) (cs : List Char) : Option (Nat × List Char) :=
  let ds := cs.takeWhile Char.isDigit
  let rest := cs.dropWhile Char.isDigit
  if ds ≠ [] ∧ rest.head? = some letter then some (digitsToNat ds, rest.tail)
  else none

/-- Embeds `timeStringToSeconds` (`Paella.tsx` lines 13–20). -/
def timeStringToSeconds (timeString : String) : Nat :=
  let cs0 := timeString.data
  let g2 := parseGroup 'h' cs0
  let hours := match g2 with | some p => p.1 * 60 * 60 | none => 0
  let cs1 := match g2 with | some p => p.2 | none => cs0
  let g4 := parseGroup 'm' cs1
  let minutes := match g4 with | some p => p.1 * 60 | none => 0
  let cs2 := match g4 with | some p => p.2 | none => cs1
  let g6 := parseGroup 's' cs2
  let seconds := match g6 with | some p => p.1 | none => 0
  hours + minutes + seconds

/-- Spec-side: the rendering of one optional group of a playback-offset
string of the form `(<N>h)?(<N>m)?(<N>s)?`: `<digits><letter>` when the
group is present, empty when it is absent. -/
def groupStr (g : Option (List Char)) (letter : Char) : List Char :=
  match g with
  | some d => d ++ [letter]
  | none => []

/-- Spec-side: the number denoted by one optional group (`0` when absent). -/
def groupVal (g : Option (List Char)) : Nat :=
  match g with
  | some d => digitsToNat d
  | none => 0

/-- Spec-side: a well-formed optional group is, when present, a nonempty
string of decimal digits. -/
def wellFormedGroup : Option (List Char) → Prop
  | some d => d ≠ [] ∧ ∀ c ∈ d, c.isDigit = true
  | none => True

/-! ## `Paella.tsx`: track classification, sorting, and source buckets -/

/-- `s.endsWith(suffix)`, expressed on the character lists of the two
strings. -/
def strEndsWith (s suffix : String) : Bool :=
  List.isSuffixOf suffix.data s.data

/-- Embeds `isHlsTrack` (`Paella.tsx` lines 63–64):
`t.mimetype === "application/x-mpegURL" || t.uri.endsWith(".m3u8")`. -/
def isHlsTrack (t : Track) : Bool :=
  t.mimetype == some "application/x-mpegURL" || strEndsWith t.uri ".m3u8"

/-- `Number(isMaster)` for `isMaster : boolean | null`:
`Number(true) = 1`, `Number(false) = 0`, `Number(null) = 0`. -/
def numberOfMaster : Option Bool → Nat
  | some true => 1
  | _ => 0

/-- The "keep `a` before `b`" relation induced by the comparator
`(a, b) => Number(b.isMaster) - Number(a.isMaster)`: the comparator is ≤ 0
exactly when `Number(b.isMaster) ≤ Number(a.isMaster)`. -/
def masterLE (a b : Track) : Bool :=
  decide (numberOfMaster b.isMaster ≤ numberOfMaster a.isMaster)

/-- Embeds `tracks.filter(isHlsTrack).sort((a, b) => Number(b.isMaster) -
Number(a.isMaster))` (`Paella.tsx` lines 379–381).  `Array.prototype.sort`
is required to be stable, so it is embedded as a stable merge sort with the
comparator-induced relation. -/
def sortedHlsTracks (tracks : List Track) : List Track :=
  (tracks.filter isHlsTrack).mergeSort masterLE

/-- A `Source` built by `trackToSource` (`Paella.tsx` lines 369–377):
`{ src, mimetype: "video/mp4", res: { w, h } }`.  The JS destructuring
`const [w, h] = t.resolution ?? [0, 0]` yields `undefined` (here `none`)
for a component missing from the array. -/
structure Source where
  src : String
  mimetype : String
  resW : Option Nat
  resH : Option Nat
deriving DecidableEq

/-- Embeds `trackToSource` (`Paella.tsx` lines 369–377). -/
def trackToSource (t : Track) : Source :=
  let r := t.resolution.getD [0, 0]
  { src := t.uri, mimetype := "video/mp4", resW := r[0]?, resH := r[1]? }

/-- Embeds `isLive ? "hlsLive" : "hls"` (`Paella.tsx` line 384). -/
def hlsKey (isLive : Bool) : String :=
  if isLive then "hlsLive" else "hls"

/-- Embeds `tracksToPaellaSources` (`Paella.tsx` lines 368–390).  The
returned object is embedded as an ordered list of key/value pairs; the
conditional spreads `...mp4Tracks.length > 0 && {...}` and
`...hlsTracks.length > 0 && {...}` add each key only when its bucket is
nonempty. -/
def tracksToPaellaSources (tracks : List Track) (isLive : Bool) :
    List (String × List Source) :=
  let hlsTracks := (tracks.filter isHlsTrack).mergeSort masterLE
  let mp4Tracks := tracks.filter fun t => !isHlsTrack t
  (if mp4Tracks.length > 0 then [("mp4", mp4Tracks.map trackToSource)] else [])
    ++ (if hlsTracks.length > 0 then [(hlsKey isLive, hlsTracks.map trackToSource)] else [])

/-! ## `Paella.tsx`: kind grouping -/

/-- Embeds `track.flavor.split("/")[0]` (`Paella.tsx` line 91): the part of
the flavor before the first `/`, or the whole flavor when it contains
none. -/
def kindOf (t : Track) : String :=
  String.mk (t.flavor.data.takeWhile fun c => c != '/')

/-- The own property names of `Object.prototype` (ECMAScript, including the
Annex B accessors present in browsers).  The grouping loop in `Paella.tsx`
tests `kind in tracksByKind`; the `in` operator consults the prototype chain,
so these names read as "present" even on an empty object literal. -/
def objectProtoKeys : List String :=
  ["constructor", "hasOwnProperty", "isPrototypeOf", "propertyIsEnumerable",
   "toLocaleString", "toString", "valueOf", "__proto__", "__defineGetter__",
   "__defineSetter__", "__lookupGetter__", "__lookupSetter__"]

/-- The non-throwing effect of one iteration of the grouping loop
(`Paella.tsx` lines 90–96) on the record's own keys: append `t` to the
bucket of the own key `k`, or create the own key at the end of creation
order.  (`insertTrackJS` below adds the error path of the `in` operator;
`entriesOf` below gives the enumeration order of the own keys.) -/
def insertTrack (acc : List (String × List Track)) (k : String) (t : Track) :
    List (String × List Track) :=
  match acc with
  | [] => [(k, [t])]
  | (kk, ts) :: rest =>
    if kk = k then (kk, ts ++ [t]) :: rest
    else (kk, ts) :: insertTrack rest k t

/-- One iteration of the grouping loop (`Paella.tsx` lines 90–95) under full
JS semantics.  `kind in tracksByKind` is true when `kind` is an own key of
the record **or** a member of `Object.prototype`:
* own key: initialization is skipped and `push` appends to the own array —
  `insertTrack`'s existing-key behavior;
* neither own key nor prototype member: `tracksByKind[kind] = []` creates the
  own key at the end of creation order, and `push` appends — `insertTrack`'s
  new-key behavior;
* only a prototype member: initialization is skipped, `tracksByKind[kind]`
  reads the inherited value, and calling `.push` on it throws a `TypeError`,
  embedded as `none`. -/
def insertTrackJS (acc : List (String × List Track)) (k : String) (t : Track) :
    Option (List (String × List Track)) :=
  if k ∈ acc.map Prod.fst then some (insertTrack acc k t)
  else if k ∈ objectProtoKeys then none
  else some (insertTrack acc k t)

/-- The grouping loop of `Paella.tsx` lines 89–96, aborting with `none` when
an iteration throws. -/
def groupLoop (acc : List (String × List Track)) :
    List Track → Option (List (String × List Track))
  | [] => some acc
  | t :: rest =>
    match insertTrackJS acc (kindOf t) t with
    | none => none
    | some acc2 => groupLoop acc2 rest

/-- The `tracksByKind` record of `Paella.tsx` lines 89–96 as built when no
iteration throws: an association list of own keys in creation order.
(`tracksByKindJS` accounts for the throwing inputs.) -/
def tracksByKind (tracks : List Track) : List (String × List Track) :=
  tracks.foldl (fun acc t => insertTrack acc (kindOf t) t) []

/-- Embeds the `tracksByKind` record construction with its error path:
`none` when the loop throws (some kind collides with an `Object.prototype`
member), the own-key association list otherwise. -/
def tracksByKindJS (tracks : List Track) :
    Option (List (String × List Track)) :=
  groupLoop [] tracks

/-- An ECMAScript array-index property key: the canonical decimal string
(no leading zeros) of an integer in `[0, 2^32 − 2]`. -/
def isArrayIndexKey (s : String) : Bool :=
  decide (s.data ≠ [] ∧ (∀ c ∈ s.data, c.isDigit = true) ∧
    (s.data.head? = some '0' → s.data = ['0']) ∧
    digitsToNat s.data < 4294967295)

/-- Insert a group into a list of array-index-keyed groups, ascending by the
numeric value of the key.  (Distinct canonical numeric strings have distinct
values, so ties cannot arise.) -/
def insortByIndex (g : String × List Track) :
    List (String × List Track) → List (String × List Track)
  | [] => [g]
  | h :: rest =>
    if digitsToNat g.1.data ≤ digitsToNat h.1.data then g :: h :: rest
    else h :: insortByIndex g rest

/-- Sort array-index-keyed groups ascending by numeric key value. -/
def sortByIndex : List (String × List Track) → List (String × List Track)
  | [] => []
  | g :: gs => insortByIndex g (sortByIndex gs)

/-- The `Object.entries` enumeration order over the record's own keys
(ECMAScript `OrdinaryOwnPropertyKeys`): array-index keys first, in ascending
numeric order, then the remaining string keys in creation order. -/
def entriesOf (acc : List (String × List Track)) :
    List (String × List Track) :=
  sortByIndex (acc.filter fun g => isArrayIndexKey g.1)
    ++ acc.filter fun g => !isArrayIndexKey g.1

/-- Spec-side invariant of the grouping loop: after processing the tracks in
`processed`, the accumulated record has distinct keys, contains a key exactly
when some processed track has that kind, maps each key to the in-order list
of processed tracks of that kind, and its first key is the kind of the first
processed track. -/
def GroupingInv (processed : List Track)
    (acc : List (String × List Track)) : Prop :=
  (acc.map Prod.fst).Nodup ∧
  (∀ k : String, k ∈ acc.map Prod.fst ↔ ∃ t ∈ processed, kindOf t = k) ∧
  (∀ g ∈ acc, g.2 = processed.filter fun t => kindOf t == g.1) ∧
  (acc.map Prod.fst).head? = (processed.map kindOf).head?

/-! ## `Paella.tsx`: duration resolution, captions, manifest -/

/-- Embeds the duration fixing in `Paella.tsx` lines 98–109: when the nominal
duration is `0` and both timestamps are non-null, replace it by
`(end − start) / 1000`; if the result is still `0`, replace it by `1`.
Timestamps are integer milliseconds; JS number division is embedded as exact
rational division. -/
def resolveDuration (duration : ℚ) (startTime endTime : Option Int) : ℚ :=
  let fixedDuration :=
    match startTime, endTime with
    | some s, some e => if duration = 0 then ((e : ℚ) - (s : ℚ)) / 1000 else duration
    | _, _ => duration
  if fixedDuration = 0 then 1 else fixedDuration

/-- A caption descriptor of the manifest (`Paella.tsx` lines 121–130). -/
structure CaptionDesc where
  format : String
  url : String
  lang : Option String
  text : String
deriving DecidableEq

/-- Embeds the caption label computation (`Paella.tsx` lines 127–129):
`t("video.caption") + (lang ? ` (lang) ` : "") + (captions.length > 1 ?
` [index+1] ` : "")`.  `lang` is tested for JS truthiness: `null` and the
empty string are falsy. -/
def captionText (label : String) (lang : Option String) (count index : Nat) :
    String :=
  label
    ++ (match lang with
        | some l => if l = "" then "" else " (" ++ l ++ ")"
        | none => "")
    ++ (if count > 1 then " [" ++ toString (index + 1) ++ "]" else "")

/-- A stream descriptor of the manifest (`Paella.tsx` lines 117–120, plus the
`role` field optionally set at line 140). -/
structure Stream where
  content : String
  sources : List (String × List Source)
  role : Option String
deriving DecidableEq

/-- The manifest handed to Paella (`Paella.tsx` lines 111–131), with its
`metadata` fields inlined. -/
structure Manifest where
  title : String
  duration : ℚ
  preview : Option String
  streams : List Stream
  captions : List CaptionDesc
deriving DecidableEq

/-- Embeds `manifest.streams[0].role = "mainAudio"` (`Paella.tsx` line
140). -/
def markMainAudio : List Stream → List Stream
  | [] => []
  | s :: rest => { s with role := some "mainAudio" } :: rest

/-- Embeds the manifest construction in the body of `PaellaPlayer`
(`Paella.tsx` lines 89–141) for the inputs on which the grouping loop does
not throw (see `buildManifestJS`): kind grouping, duration resolution,
stream and caption building, and the main-audio marking.  `captionLabel` is
the localized string `t("video.caption")`.  The streams come from
`Object.entries(tracksByKind)`, so they follow the entries enumeration order
(`entriesOf`).  The `"presenter" in tracksByKind` test at line 137 again
uses the `in` operator (own keys or `Object.prototype` members; the latter
disjunct is constantly false since `"presenter"` is not one).  The second
component is `true` iff the `console.warn` diagnostic at line 139 is emitted
(which happens exactly when the first stream is marked as main audio). -/
def buildManifest (captionLabel title : String) (duration : ℚ)
    (tracks : List Track) (captions : List Caption) (isLive : Bool)
    (startTime endTime : Option Int) (previewImage : Option String) :
    Manifest × Bool :=
  let byKind := tracksByKind tracks
  let fixedDuration := resolveDuration duration startTime endTime
  let streams := (entriesOf byKind).map fun g =>
    Stream.mk g.1 (tracksToPaellaSources g.2 isLive) none
  let captionDescs := captions.enum.map fun p =>
    CaptionDesc.mk "vtt" p.2.uri p.2.lang
      (captionText captionLabel p.2.lang captions.length p.1)
  let warn := decide (1 < streams.length) &&
    !((byKind.any fun g => g.1 == "presenter") ||
      objectProtoKeys.contains "presenter")
  let streams2 := if warn then markMainAudio streams else streams
  ({ title := title, duration := fixedDuration, preview := previewImage,
     streams := streams2, captions := captionDescs }, warn)

/-- The manifest construction with its error path: the grouping loop
(`tracksByKindJS`) is the only throwing step of the `useEffect` body, so the
construction yields no manifest exactly when that loop throws, and the
`buildManifest` value otherwise. -/
def buildManifestJS (captionLabel title : String) (duration : ℚ)
    (tracks : List Track) (captions : List Caption) (isLive : Bool)
    (startTime endTime : Option Int) (previewImage : Option String) :
    Option (Manifest × Bool) :=
  (tracksByKindJS tracks).map fun _ =>
    buildManifest captionLabel title duration tracks captions isLive
      startTime endTime previewImage

end PaellaSpec

/-! ## Claim theorems (first batch) -/

namespace PaellaSpec

/-- C1 (amended): `delayTill` returns `min(date − now + 500, 2^31 − 1)`: the
result never exceeds `2147483647`, equals exactly `2147483647` whenever the
raw delay exceeds it, and equals the raw delay otherwise — with no lower
clamp at `0`, so the result can be negative. -/
theorem claim_C1 (date now : Int) :
    delayTill date now ≤ 2147483647 ∧
    (2147483647 < date - now + 500 → delayTill date now = 2147483647) ∧
    (date - now + 500 ≤ 2147483647 → delayTill date now = date - now + 500) := by
  refine ⟨min_le_right _ _, fun h => ?_, fun h => ?_⟩
  · exact min_eq_right (le_of_lt h)
  · exact min_eq_left h

/-- Witness for C1: at `date = 9999999999`, `now = 0` the raw delay
exceeds `2^31 − 1` and the clamp fires. -/
theorem claim_C1_witness : delayTill 9999999999 0 = 2147483647 :=
  (claim_C1 9999999999 0).2.1 (by decide)

/-- Counterexample to C1 as stated: at `date = 0`, `now = 1000` the raw
delay is `−500`, and `delayTill` returns `−500`, which is negative and
differs from `max 0 (min (−500) (2^31 − 1)) = 0`. -/
theorem claim_C1_cex :
    delayTill 0 1000 = -500 ∧ delayTill 0 1000 < 0 ∧
    delayTill 0 1000 ≠ max 0 (min ((0 : Int) - 1000 + 500) 2147483647) := by
  refine ⟨by decide, by decide, by decide⟩

/-- C4: the resolved duration is the nominal duration when it is nonzero;
`(end − start)/1000` when the nominal duration is `0`, both timestamps are
present and that quotient is nonzero; and the sentinel `1` when the nominal
duration is `0` and either a timestamp is missing or the quotient is `0`. -/
theorem claim_C4 (duration : ℚ) (startTime endTime : Option Int) :
    (duration ≠ 0 → resolveDuration duration startTime endTime = duration) ∧
    (∀ s e : Int, duration = 0 → startTime = some s → endTime = some e →
      ((e : ℚ) - (s : ℚ)) / 1000 ≠ 0 →
      resolveDuration duration startTime endTime = ((e : ℚ) - (s : ℚ)) / 1000) ∧
    (duration = 0 → startTime = none →
      resolveDuration duration startTime endTime = 1) ∧
    (duration = 0 → endTime = none →
      resolveDuration duration startTime endTime = 1) ∧
    (∀ s e : Int, duration = 0 → startTime = some s → endTime = some e →
      ((e : ℚ) - (s : ℚ)) / 1000 = 0 →
      resolveDuration duration startTime endTime = 1) := by
  refine ⟨fun h => ?_, fun s e h hs he hq => ?_, fun h hs => ?_, fun h he => ?_,
    fun s e h hs he hq => ?_⟩
  · cases startTime <;> cases endTime <;> simp [resolveDuration, h]
  · subst hs he h
    simp [resolveDuration, hq]
  · subst hs h
    simp [resolveDuration]
  · subst he h
    cases startTime <;> simp [resolveDuration]
  · subst hs he h
    simp [resolveDuration, hq]

/-- Witness for C4, matching the spec example: duration 0 with timestamps ten
minutes apart resolves to 600 seconds. -/
theorem claim_C4_witness :
    resolveDuration 0 (some 1704067200000) (some 1704067800000) = 600 := by
  have h := (claim_C4 0 (some 1704067200000) (some 1704067800000)).2.1
    1704067200000 1704067800000 rfl rfl rfl (by norm_num)
  rw [h]
  norm_num

/-- C10: every source descriptor carries the fixed mimetype `"video/mp4"`
regardless of the track's declared mimetype, and a track with a null
resolution is emitted with resolution width 0 and height 0. -/
theorem claim_C10 (tracks : List Track) (isLive : Bool) :
    (∀ t : Track, (trackToSource t).mimetype = "video/mp4" ∧
      (t.resolution = none →
        (trackToSource t).resW = some 0 ∧ (trackToSource t).resH = some 0)) ∧
    (∀ key srcs, (key, srcs) ∈ tracksToPaellaSources tracks isLive →
      ∀ s ∈ srcs, s.mimetype = "video/mp4") := by
  constructor
  · intro t
    refine ⟨rfl, fun h => ?_⟩
    simp [trackToSource, h]
  · intro key srcs hmem s hs
    simp only [tracksToPaellaSources, List.mem_append] at hmem
    rcases hmem with h | h <;> rw [List.mem_ite_nil_right] at h <;>
      obtain ⟨-, h⟩ := h <;> rw [List.mem_singleton] at h <;>
      injection h with h1 h2 <;> subst h2 <;>
      · rcases List.mem_map.mp hs with ⟨t, -, rfl⟩
        rfl

/-- Witness for C10 at a concrete track with a null resolution. -/
theorem claim_C10_witness :
    (trackToSource ⟨"u", "p", some "video/webm", none, none⟩).resW = some 0 ∧
    (trackToSource ⟨"u", "p", some "video/webm", none, none⟩).resH = some 0 :=
  ((claim_C10 [] false).1 ⟨"u", "p", some "video/webm", none, none⟩).2 rfl

/-- C6 (amended): the builder emits one caption descriptor per input caption
(format `"vtt"`, the caption's URI and language), whose display label is the
localized caption label, followed by `" (<language>)"` exactly when the
language tag is present **and non-empty** (the source tests the tag for JS
truthiness, so an empty-string tag gets no suffix), followed by
`" [<1-based index>]"` exactly when the caption list has more than one
caption. -/
theorem claim_C6 (captionLabel title : String) (duration : ℚ)
    (tracks : List Track) (captions : List Caption) (isLive : Bool)
    (startTime endTime : Option Int) (preview : Option String)
    (i : Nat) (c : Caption) (hc : captions[i]? = some c) :
    (buildManifest captionLabel title duration tracks captions isLive
        startTime endTime preview).1.captions.length = captions.length ∧
    (buildManifest captionLabel title duration tracks captions isLive
        startTime endTime preview).1.captions[i]? =
      some (CaptionDesc.mk "vtt" c.uri c.lang
        (captionLabel
          ++ (match c.lang with
              | some l => if l = "" then "" else " (" ++ l ++ ")"
              | none => "")
          ++ (if 1 < captions.length then " [" ++ toString (i + 1) ++ "]" else ""))) := by
  constructor
  · simp [buildManifest]
  · show (captions.enum.map _)[i]? = _
    rw [List.getElem?_map, List.getElem?_enum, hc]
    rfl

/-- Witness for C6: two captions with language tags `"en"` and `"fr"`; the
first gets the label `"Caption (en) [1]"`. -/
theorem claim_C6_witness :
    (buildManifest "Caption" "" 0 [] [⟨"u", some "en"⟩, ⟨"v", some "fr"⟩]
        false none none none).1.captions[0]? =
      some (CaptionDesc.mk "vtt" "u" (some "en") "Caption (en) [1]") := by
  have h := claim_C6 "Caption" "" 0 [] [⟨"u", some "en"⟩, ⟨"v", some "fr"⟩]
    false none none none 0 ⟨"u", some "en"⟩ rfl
  simpa using h.2

/-- Counterexample to C6 as stated: a single caption whose language tag is
present but empty (`lang = some ""`).  The tag is present, so the claim
requires the label to end in `" ()"`; the code tests the tag for truthiness
and emits the bare label. -/
theorem claim_C6_cex :
    ((buildManifest "Caption" "" 0 [] [⟨"u", some ""⟩] false none none
        none).1.captions.map CaptionDesc.text) = ["Caption"] ∧
    ("Caption" : String) ≠ "Caption ()" := by
  exact ⟨by decide, by decide⟩

/-- C8: the `Player` render branch shows the PENDING placeholder exactly when
the event is live and `hasStarted` is `false`; the ENDED placeholder exactly
when the event is live, `hasEnded` is `true` and `hasStarted` is not `false`;
and delegates to the external player in every other case. -/
theorem claim_C8 (isLive : Bool) (hasStarted hasEnded : TimeFlag) :
    (renderPlayer isLive hasStarted hasEnded = PlayerView.pendingPlaceholder ↔
      isLive = true ∧ hasStarted = TimeFlag.no) ∧
    (renderPlayer isLive hasStarted hasEnded = PlayerView.endedPlaceholder ↔
      isLive = true ∧ hasEnded = TimeFlag.yes ∧ hasStarted ≠ TimeFlag.no) ∧
    (renderPlayer isLive hasStarted hasEnded = PlayerView.delegatedPlayer ↔
      isLive = false ∨ (hasStarted ≠ TimeFlag.no ∧ hasEnded ≠ TimeFlag.yes)) := by
  cases isLive <;> cases hasStarted <;> cases hasEnded <;> decide

/-! ### Helper lemmas for the offset parser -/

theorem takeWhile_digits_append (d : List Char)
    (hd : ∀ c ∈ d, c.isDigit = true) (c : Char) (hc : c.isDigit = false)
    (rest : List Char) :
    (d ++ c :: rest).takeWhile Char.isDigit = d ∧
    (d ++ c :: rest).dropWhile Char.isDigit = c :: rest := by
  induction d with
  | nil => simp [List.takeWhile_cons, List.dropWhile_cons, hc]
  | cons a d ih =>
    have ha := hd a (List.mem_cons_self a d)
    have ih2 := ih fun x hx => hd x (List.mem_cons_of_mem a hx)
    simp [List.takeWhile_cons, List.dropWhile_cons, ha, ih2.1, ih2.2]

theorem takeWhile_digits_all (d : List Char)
    (hd : ∀ c ∈ d, c.isDigit = true) :
    d.takeWhile Char.isDigit = d ∧ d.dropWhile Char.isDigit = [] := by
  induction d with
  | nil => simp
  | cons a d ih =>
    have ha := hd a (List.mem_cons_self a d)
    have ih2 := ih fun x hx => hd x (List.mem_cons_of_mem a hx)
    simp [List.takeWhile_cons, List.dropWhile_cons, ha, ih2.1, ih2.2]

/-- `parseGroup` at a digit run followed by a non-digit character:
the group participates iff the run is nonempty and the character is the
group's letter. -/
theorem parseGroup_at_letter (letter : Char) (d : List Char)
    (hd : ∀ c ∈ d, c.isDigit = true) (c : Char) (hc : c.isDigit = false)
    (rest : List Char) :
    parseGroup letter (d ++ c :: rest) =
      if d ≠ [] ∧ c = letter then some (digitsToNat d, rest) else none := by
  obtain ⟨ht, hdr⟩ := takeWhile_digits_append d hd c hc rest
  simp only [parseGroup, ht, hdr, List.head?_cons, List.tail_cons]
  by_cases h1 : d = [] <;> by_cases h2 : c = letter <;> simp [h1, h2]

/-- `parseGroup` at a digit run that reaches the end of the input never
participates. -/
theorem parseGroup_at_end (letter : Char) (d : List Char)
    (hd : ∀ c ∈ d, c.isDigit = true) :
    parseGroup letter d = none := by
  obtain ⟨ht, hdr⟩ := takeWhile_digits_all d hd
  simp [parseGroup, ht, hdr]

/-- C3 (amended): `timeStringToSeconds` parses greedily from the start of
the string.  (1) On every well-formed string
`(<N>h)?(<N>m)?(<N>s)?` it returns `h*3600 + m*60 + s` with absent groups
contributing 0 (in particular the empty string yields 0).  (2) When no
group matches at the start of the string — the string starts with no digits,
or its leading digit run is followed by none of `h`/`m`/`s` — it returns 0.
But a malformed string whose well-formed greedy prefix is nonempty can
return a nonzero value (see `claim_C3_cex`), so malformed strings do not
all yield 0. -/
theorem claim_C3 :
    (∀ gh gm gs : Option (List Char), wellFormedGroup gh → wellFormedGroup gm →
      wellFormedGroup gs →
      timeStringToSeconds
          (String.mk (groupStr gh 'h' ++ groupStr gm 'm' ++ groupStr gs 's')) =
        3600 * groupVal gh + 60 * groupVal gm + groupVal gs) ∧
    (∀ s : String,
      (s.data.takeWhile Char.isDigit = [] ∨
        ∀ c : Char, (s.data.dropWhile Char.isDigit).head? = some c →
          c ≠ 'h' ∧ c ≠ 'm' ∧ c ≠ 's') →
      timeStringToSeconds s = 0) := by
  constructor
  · intro gh gm gs h1 h2 h3
    rcases gh with _ | d1 <;> rcases gm with _ | d2 <;> rcases gs with _ | d3 <;>
      simp only [wellFormedGroup] at h1 h2 h3 <;>
      simp only [groupStr, groupVal, List.nil_append, List.append_nil,
        List.append_assoc, List.singleton_append, List.cons_append]
    · -- no groups at all: the empty string
      simp [timeStringToSeconds, parseGroup]
    · -- only seconds
      simp [timeStringToSeconds,
        parseGroup_at_letter 'h' d3 h3.2 's' (by decide) [],
        parseGroup_at_letter 'm' d3 h3.2 's' (by decide) [],
        parseGroup_at_letter 's' d3 h3.2 's' (by decide) [], h3.1]
      try ring
    · -- only minutes
      simp [timeStringToSeconds,
        parseGroup_at_letter 'h' d2 h2.2 'm' (by decide) [],
        parseGroup_at_letter 'm' d2 h2.2 'm' (by decide) [],
        parseGroup_at_end 's' [] (by simp), h2.1]
      try ring
    · -- minutes and seconds
      simp [timeStringToSeconds,
        parseGroup_at_letter 'h' d2 h2.2 'm' (by decide) _,
        parseGroup_at_letter 'm' d2 h2.2 'm' (by decide) _,
        parseGroup_at_letter 's' d3 h3.2 's' (by decide) [],
        h2.1, h3.1]
      try ring
    · -- only hours
      simp [timeStringToSeconds,
        parseGroup_at_letter 'h' d1 h1.2 'h' (by decide) [],
        parseGroup_at_end 'm' [] (by simp),
        parseGroup_at_end 's' [] (by simp), h1.1]
      try ring
    · -- hours and seconds
      simp [timeStringToSeconds,
        parseGroup_at_letter 'h' d1 h1.2 'h' (by decide) _,
        parseGroup_at_letter 'm' d3 h3.2 's' (by decide) [],
        parseGroup_at_letter 's' d3 h3.2 's' (by decide) [],
        h1.1, h3.1]
      try ring
    · -- hours and minutes
      simp [timeStringToSeconds,
        parseGroup_at_letter 'h' d1 h1.2 'h' (by decide) _,
        parseGroup_at_letter 'm' d2 h2.2 'm' (by decide) [],
        parseGroup_at_end 's' [] (by simp), h1.1, h2.1]
      try ring
    · -- all three groups
      simp [timeStringToSeconds,
        parseGroup_at_letter 'h' d1 h1.2 'h' (by decide) _,
        parseGroup_at_letter 'm' d2 h2.2 'm' (by decide) _,
        parseGroup_at_letter 's' d3 h3.2 's' (by decide) [],
        h1.1, h2.1, h3.1]
      try ring
  · intro s h
    have key : parseGroup 'h' s.data = none ∧ parseGroup 'm' s.data = none ∧
        parseGroup 's' s.data = none := by
      rcases h with h | h
      · refine ⟨?_, ?_, ?_⟩ <;> simp [parseGroup, h]
      · cases hh : (s.data.dropWhile Char.isDigit).head? with
        | none => refine ⟨?_, ?_, ?_⟩ <;> simp [parseGroup, hh]
        | some c =>
          obtain ⟨hch, hcm, hcs⟩ := h c hh
          refine ⟨?_, ?_, ?_⟩ <;> simp [parseGroup, hh, hch, hcm, hcs]
    simp [timeStringToSeconds, key.1, key.2.1, key.2.2]

/-- Witness for C3 on the well-formed string `"1h2m3s"`. -/
theorem claim_C3_witness : timeStringToSeconds "1h2m3s" = 3723 := by
  have h := claim_C3.1 (some ['1']) (some ['2']) (some ['3'])
    ⟨by decide, by decide⟩ ⟨by decide, by decide⟩ ⟨by decide, by decide⟩
  have e : String.mk (groupStr (some ['1']) 'h' ++ groupStr (some ['2']) 'm'
      ++ groupStr (some ['3']) 's') = "1h2m3s" := by decide
  rw [e] at h
  rw [h]
  decide

/-- Counterexample to C3 as stated: `"2m1h"` is malformed (an hours group
after a minutes group), yet the unanchored regex matches its prefix `"2m"`
and the function returns 120, not 0. -/
theorem claim_C3_cex :
    timeStringToSeconds "2m1h" = 120 ∧ (120 : Nat) ≠ 0 := by
  exact ⟨by decide, by decide⟩

/-! ### Helper lemmas for the master-first sort -/

theorem masterLE_trans (a b c : Track) (h1 : masterLE a b) (h2 : masterLE b c) :
    masterLE a c := by
  simp only [masterLE, decide_eq_true_eq] at h1 h2 ⊢
  omega

theorem masterLE_total (a b : Track) : masterLE a b || masterLE b a := by
  simp only [masterLE, Bool.or_eq_true, decide_eq_true_eq]
  omega

theorem numberOfMaster_le_one (m : Option Bool) : numberOfMaster m ≤ 1 := by
  cases m with
  | none => decide
  | some b => cases b <;> decide

theorem numberOfMaster_eq_one_iff (m : Option Bool) :
    numberOfMaster m = 1 ↔ m = some true := by
  cases m with
  | none => decide
  | some b => cases b <;> decide

/-- If two concatenations agree and each is an all-`p` block followed by an
all-`¬p` block, the blocks agree. -/
theorem append_eq_append_pred {α : Type} (p : α → Bool) {x1 x2 y1 y2 : List α}
    (h : x1 ++ x2 = y1 ++ y2)
    (hx1 : ∀ a ∈ x1, p a = true) (hx2 : ∀ a ∈ x2, p a = false)
    (hy1 : ∀ a ∈ y1, p a = true) (hy2 : ∀ a ∈ y2, p a = false) :
    x1 = y1 ∧ x2 = y2 := by
  have e1 : (x1 ++ x2).countP p = x1.length := by
    rw [List.countP_append, List.countP_eq_length.mpr hx1,
      List.countP_eq_zero.mpr (fun a ha => by simp [hx2 a ha])]
    omega
  have e2 : (y1 ++ y2).countP p = y1.length := by
    rw [List.countP_append, List.countP_eq_length.mpr hy1,
      List.countP_eq_zero.mpr (fun a ha => by simp [hy2 a ha])]
    omega
  rw [h, e2] at e1
  exact List.append_inj h e1.symm

/-- A stable sort with the binary comparator key `Number(isMaster)`
(descending) is exactly: the key-1 tracks in input order, then the key-0
tracks in input order. -/
theorem mergeSort_masterLE (l : List Track) :
    l.mergeSort masterLE =
      l.filter (fun t => t.isMaster == some true)
        ++ l.filter (fun t => !(t.isMaster == some true)) := by
  induction l with
  | nil => simp
  | cons a l ih =>
    obtain ⟨l1, l2, h1, h2, h3⟩ :=
      List.mergeSort_cons masterLE_trans masterLE_total a l
    by_cases ha : a.isMaster = some true
    · have hl1 : l1 = [] := by
        cases l1 with
        | nil => rfl
        | cons b bs =>
          exfalso
          have hb := h3 b (List.mem_cons_self b bs)
          simp only [masterLE, Bool.not_eq_true', decide_eq_false_iff_not,
            ha] at hb
          exact hb (numberOfMaster_le_one b.isMaster)
      subst hl1
      rw [List.nil_append] at h1 h2
      rw [h1, h2.symm.trans ih, List.filter_cons_of_pos (by simp [ha]),
        List.filter_cons_of_neg (by simp [ha]), List.cons_append]
    · have ha0 : numberOfMaster a.isMaster = 0 := by
        rcases hm : a.isMaster with _ | b
        · rfl
        · cases b
          · rfl
          · exact absurd hm ha
      have hl1T : ∀ b ∈ l1, b.isMaster = some true := by
        intro b hb
        have h3b := h3 b hb
        simp only [masterLE, Bool.not_eq_true', decide_eq_false_iff_not,
          ha0] at h3b
        have hble := numberOfMaster_le_one b.isMaster
        exact (numberOfMaster_eq_one_iff _).mp (by omega)
      have hsor := List.sorted_mergeSort masterLE_trans masterLE_total (a :: l)
      rw [h1] at hsor
      have hl2F : ∀ b ∈ l2, ¬(b.isMaster = some true) := by
        intro b hb hbt
        have hp := List.Pairwise.sublist
          (List.sublist_append_right l1 (a :: l2)) hsor
        have hab := (List.pairwise_cons.mp hp).1 b hb
        simp only [masterLE, decide_eq_true_eq, ha0, hbt,
          numberOfMaster] at hab
        omega
      obtain ⟨e1, e2⟩ := append_eq_append_pred
        (fun t : Track => t.isMaster == some true) (h2.symm.trans ih)
        (fun b hb => by simp [hl1T b hb])
        (fun b hb => by simpa using hl2F b hb)
        (fun b hb => (List.mem_filter.mp hb).2)
        (fun b hb => by simpa using (List.mem_filter.mp hb).2)
      rw [h1, e1, e2, List.filter_cons_of_neg (by simp [ha]),
        List.filter_cons_of_pos (by simp [ha])]

/-- C5: a track is classified as segmented-manifest (HLS) iff its mimetype
is `"application/x-mpegURL"` or its URI ends in `".m3u8"`; and the sorted
HLS sublist is exactly the `isMaster = true` tracks in input order followed
by the remaining HLS tracks in input order (so all master tracks sort before
all non-master tracks and the sort is stable). -/
theorem claim_C5 (tracks : List Track) :
    (∀ t : Track, isHlsTrack t = true ↔
      (t.mimetype = some "application/x-mpegURL" ∨
        strEndsWith t.uri ".m3u8" = true)) ∧
    sortedHlsTracks tracks =
      (tracks.filter isHlsTrack).filter (fun t => t.isMaster == some true)
        ++ (tracks.filter isHlsTrack).filter
            (fun t => !(t.isMaster == some true)) ∧
    List.Pairwise
      (fun a b : Track => b.isMaster = some true → a.isMaster = some true)
      (sortedHlsTracks tracks) := by
  refine ⟨fun t => ?_, mergeSort_masterLE _, ?_⟩
  · simp [isHlsTrack]
  · rw [show sortedHlsTracks tracks
        = (tracks.filter isHlsTrack).mergeSort masterLE from rfl,
      mergeSort_masterLE]
    apply List.pairwise_append.mpr
    refine ⟨?_, ?_, ?_⟩
    · apply List.pairwise_of_forall_mem_list
      intro a ha b hb
      intro _
      simpa using (List.mem_filter.mp ha).2
    · apply List.pairwise_of_forall_mem_list
      intro a ha b hb
      intro hbt
      have := (List.mem_filter.mp hb).2
      simp [hbt] at this
    · intro a ha b hb _
      simpa using (List.mem_filter.mp ha).2

/-! ### Helper lemmas for the kind grouping -/

theorem keys_insertTrack (acc : List (String × List Track)) (k : String)
    (t : Track) :
    (insertTrack acc k t).map Prod.fst =
      if k ∈ acc.map Prod.fst then acc.map Prod.fst
      else acc.map Prod.fst ++ [k] := by
  induction acc with
  | nil => simp [insertTrack]
  | cons g rest ih =>
    obtain ⟨kk, ts⟩ := g
    by_cases h : kk = k
    · subst h
      simp [insertTrack]
    · simp only [insertTrack, if_neg h, List.map_cons, ih, List.mem_cons]
      by_cases h2 : k ∈ rest.map Prod.fst <;>
        simp [h2, Ne.symm h]

theorem mem_insertTrack {acc : List (String × List Track)} {k : String}
    {t : Track} (hnd : (acc.map Prod.fst).Nodup) :
    ∀ g ∈ insertTrack acc k t,
      (g ∈ acc ∧ g.1 ≠ k) ∨
      (g.1 = k ∧ ∃ ts0, g.2 = ts0 ++ [t] ∧
        ((k, ts0) ∈ acc ∨ (ts0 = [] ∧ k ∉ acc.map Prod.fst))) := by
  induction acc with
  | nil =>
    intro g hg
    simp only [insertTrack, List.mem_singleton] at hg
    subst hg
    exact Or.inr ⟨rfl, [], by simp, Or.inr ⟨rfl, by simp⟩⟩
  | cons g0 rest ih =>
    obtain ⟨kk, ts⟩ := g0
    intro g hg
    rw [List.map_cons, List.nodup_cons] at hnd
    by_cases h : kk = k
    · subst h
      simp only [insertTrack, if_pos rfl] at hg
      cases hg with
      | head =>
        refine Or.inr ⟨rfl, ts, rfl, Or.inl ?_⟩
        exact List.mem_cons_self _ _
      | tail _ hg =>
        left
        refine ⟨List.mem_cons_of_mem _ hg, fun hgk => ?_⟩
        have hmap : g.1 ∈ rest.map Prod.fst := List.mem_map_of_mem Prod.fst hg
        rw [hgk] at hmap
        exact hnd.1 hmap
    · simp only [insertTrack, if_neg h] at hg
      cases hg with
      | head => exact Or.inl ⟨List.mem_cons_self _ _, h⟩
      | tail _ hg =>
        rcases ih hnd.2 g hg with ⟨hm, hne⟩ | ⟨hk, ts0, hts, hcase⟩
        · exact Or.inl ⟨List.mem_cons_of_mem _ hm, hne⟩
        · refine Or.inr ⟨hk, ts0, hts, ?_⟩
          rcases hcase with hmem | ⟨hnil, hnot⟩
          · exact Or.inl (List.mem_cons_of_mem _ hmem)
          · refine Or.inr ⟨hnil, ?_⟩
            simp only [List.map_cons, List.mem_cons]
            rintro (rfl | hx)
            · exact h rfl
            · exact hnot hx

theorem groupingInv_step {processed : List Track}
    {acc : List (String × List Track)} (h : GroupingInv processed acc)
    (t : Track) :
    GroupingInv (processed ++ [t]) (insertTrack acc (kindOf t) t) := by
  obtain ⟨h1, h2, h3, h4⟩ := h
  have keys := keys_insertTrack acc (kindOf t) t
  refine ⟨?_, ?_, ?_, ?_⟩
  · rw [keys]
    by_cases hk : kindOf t ∈ acc.map Prod.fst
    · rw [if_pos hk]
      exact h1
    · rw [if_neg hk]
      simp [List.nodup_append, h1, hk]
  · intro k'
    by_cases hk : kindOf t ∈ acc.map Prod.fst
    · rw [keys, if_pos hk, h2 k']
      constructor
      · rintro ⟨t', ht', rfl⟩
        exact ⟨t', List.mem_append_left _ ht', rfl⟩
      · rintro ⟨t', ht', rfl⟩
        rcases List.mem_append.mp ht' with hm | hm
        · exact ⟨t', hm, rfl⟩
        · rw [List.mem_singleton] at hm
          subst hm
          exact (h2 _).mp hk
    · rw [keys, if_neg hk, List.mem_append, List.mem_singleton, h2 k']
      constructor
      · rintro (⟨t', ht', rfl⟩ | rfl)
        · exact ⟨t', List.mem_append_left _ ht', rfl⟩
        · exact ⟨t, List.mem_append_right _ (List.mem_singleton_self t), rfl⟩
      · rintro ⟨t', ht', rfl⟩
        rcases List.mem_append.mp ht' with hm | hm
        · exact Or.inl ⟨t', hm, rfl⟩
        · rw [List.mem_singleton] at hm
          subst hm
          exact Or.inr rfl
  · intro g hg
    rcases mem_insertTrack h1 g hg with ⟨hm, hne⟩ | ⟨hk, ts0, hts, hcase⟩
    · rw [h3 g hm, List.filter_append]
      have : (kindOf t == g.1) = false := by
        simp [Ne.symm hne]
      simp [this]
    · rcases hcase with hmem | ⟨hnil, hnot⟩
      · have hts0 : ts0 = processed.filter (fun t' => kindOf t' == kindOf t) :=
          h3 (kindOf t, ts0) hmem
        rw [hts, hk, hts0, List.filter_append]
        simp
      · subst hnil
        rw [hts, hk, List.filter_append]
        have hfil : processed.filter (fun t' => kindOf t' == kindOf t) = [] := by
          rw [List.filter_eq_nil_iff]
          intro t' ht' hbt
          exact hnot ((h2 (kindOf t)).mpr ⟨t', ht', by simpa using hbt⟩)
        simp [hfil]
  · by_cases hk : kindOf t ∈ acc.map Prod.fst
    · rw [keys, if_pos hk]
      obtain ⟨t0, ht0, -⟩ := (h2 _).mp hk
      cases processed with
      | nil => exact absurd ht0 (List.not_mem_nil t0)
      | cons p ps =>
        rw [h4]
        simp
    · rw [keys, if_neg hk]
      cases hacc : acc.map Prod.fst with
      | nil =>
        cases processed with
        | nil => simp
        | cons p ps =>
          exfalso
          have := (h2 (kindOf p)).mpr ⟨p, List.mem_cons_self p ps, rfl⟩
          rw [hacc] at this
          exact List.not_mem_nil _ this
      | cons k0 ks =>
        cases processed with
        | nil =>
          exfalso
          have := (h2 k0).mp (by rw [hacc]; exact List.mem_cons_self k0 ks)
          obtain ⟨t0, ht0, -⟩ := this
          exact List.not_mem_nil t0 ht0
        | cons p ps =>
          rw [hacc] at h4
          simp only [List.cons_append, List.head?_cons, List.map_cons] at h4 ⊢
          exact h4

theorem groupingInv_foldl :
    ∀ (rest processed : List Track) (acc : List (String × List Track)),
      GroupingInv processed acc →
      GroupingInv (processed ++ rest)
        (rest.foldl (fun acc t => insertTrack acc (kindOf t) t) acc) := by
  intro rest
  induction rest with
  | nil =>
    intro processed acc h
    simpa using h
  | cons t rest ih =>
    intro processed acc h
    have hstep := groupingInv_step h t
    have hres := ih (processed ++ [t]) _ hstep
    simpa [List.append_assoc] using hres

theorem groupingInv_tracksByKind (tracks : List Track) :
    GroupingInv tracks (tracksByKind tracks) := by
  have h := groupingInv_foldl tracks [] []
    ⟨List.nodup_nil, by simp, by simp, rfl⟩
  simpa [tracksByKind] using h

theorem insertTrackJS_of_ok (acc : List (String × List Track)) (k : String)
    (t : Track) (h : k ∉ objectProtoKeys) :
    insertTrackJS acc k t = some (insertTrack acc k t) := by
  unfold insertTrackJS
  by_cases hk : k ∈ acc.map Prod.fst
  · rw [if_pos hk]
  · rw [if_neg hk, if_neg h]

theorem groupLoop_of_ok :
    ∀ (tracks : List Track) (acc : List (String × List Track)),
      (∀ t ∈ tracks, kindOf t ∉ objectProtoKeys) →
      groupLoop acc tracks =
        some (tracks.foldl (fun acc t => insertTrack acc (kindOf t) t) acc) := by
  intro tracks
  induction tracks with
  | nil =>
    intro acc h
    rfl
  | cons t rest ih =>
    intro acc h
    have hstep := insertTrackJS_of_ok acc (kindOf t) t
      (h t (List.mem_cons_self t rest))
    simp only [groupLoop, hstep, List.foldl_cons]
    exact ih _ fun x hx => h x (List.mem_cons_of_mem t hx)

theorem groupLoop_of_collision :
    ∀ (tracks : List Track) (acc : List (String × List Track)),
      (∀ k ∈ acc.map Prod.fst, k ∉ objectProtoKeys) →
      (∃ t ∈ tracks, kindOf t ∈ objectProtoKeys) →
      groupLoop acc tracks = none := by
  intro tracks
  induction tracks with
  | nil =>
    rintro acc - ⟨t, ht, -⟩
    exact absurd ht (List.not_mem_nil t)
  | cons t rest ih =>
    rintro acc hacc ⟨t2, ht2, hcol⟩
    by_cases hct : kindOf t ∈ objectProtoKeys
    · have hnot : kindOf t ∉ acc.map Prod.fst := fun hmem => hacc _ hmem hct
      simp only [groupLoop, insertTrackJS, if_neg hnot, if_pos hct]
    · have hstep := insertTrackJS_of_ok acc (kindOf t) t hct
      simp only [groupLoop, hstep]
      apply ih
      · intro k hk
        rw [keys_insertTrack] at hk
        split at hk
        · exact hacc k hk
        · rcases List.mem_append.mp hk with hm | hm
          · exact hacc k hm
          · rw [List.mem_singleton] at hm
            subst hm
            exact hct
      · cases ht2 with
        | head => exact absurd hcol hct
        | tail _ hm => exact ⟨t2, hm, hcol⟩

theorem tracksByKindJS_of_ok {tracks : List Track}
    (h : ∀ t ∈ tracks, kindOf t ∉ objectProtoKeys) :
    tracksByKindJS tracks = some (tracksByKind tracks) :=
  groupLoop_of_ok tracks [] h

theorem tracksByKindJS_eq_none_iff (tracks : List Track) :
    tracksByKindJS tracks = none ↔
      ∃ t ∈ tracks, kindOf t ∈ objectProtoKeys := by
  constructor
  · intro hnone
    by_contra hcol
    push_neg at hcol
    rw [tracksByKindJS_of_ok hcol] at hnone
    exact Option.noConfusion hnone
  · intro hcol
    exact groupLoop_of_collision tracks [] (by simp) hcol

theorem buildManifestJS_of_ok (captionLabel title : String) (duration : ℚ)
    {tracks : List Track} (captions : List Caption) (isLive : Bool)
    (startTime endTime : Option Int) (preview : Option String)
    (h : ∀ t ∈ tracks, kindOf t ∉ objectProtoKeys) :
    buildManifestJS captionLabel title duration tracks captions isLive
        startTime endTime preview =
      some (buildManifest captionLabel title duration tracks captions isLive
        startTime endTime preview) := by
  unfold buildManifestJS
  rw [tracksByKindJS_of_ok h]
  rfl

theorem insortByIndex_perm (g : String × List Track)
    (l : List (String × List Track)) :
    List.Perm (insortByIndex g l) (g :: l) := by
  induction l with
  | nil => exact List.Perm.refl _
  | cons h rest ih =>
    simp only [insortByIndex]
    split
    · exact List.Perm.refl _
    · exact (ih.cons h).trans (List.Perm.swap g h rest)

theorem sortByIndex_perm (l : List (String × List Track)) :
    List.Perm (sortByIndex l) l := by
  induction l with
  | nil => exact List.Perm.refl _
  | cons g gs ih => exact (insortByIndex_perm g _).trans (ih.cons g)

theorem entriesOf_perm (acc : List (String × List Track)) :
    List.Perm (entriesOf acc) acc := by
  unfold entriesOf
  exact ((sortByIndex_perm _).append_right _).trans
    (List.filter_append_perm _ acc)

theorem entriesOf_of_no_index (acc : List (String × List Track))
    (h : ∀ g ∈ acc, isArrayIndexKey g.1 = false) :
    entriesOf acc = acc := by
  unfold entriesOf
  rw [List.filter_eq_nil_iff.mpr (fun g hg => by simp [h g hg]),
    List.filter_eq_self.mpr (fun g hg => by simp [h g hg])]
  rfl

/-- C2 (amended): an event with zero tracks produces a manifest with zero
streams and no error; the manifest construction fails exactly on the events
where some track's kind is an `Object.prototype` member name (the `in`
operator sees inherited members, so the grouping loop calls `.push` on an
inherited value and throws), and completes on every other input; and the
aspect-ratio computation of `InlinePlayer` only succeeds on a nonempty track
list (it throws on an empty one, see `claim_C2_cex`). -/
theorem claim_C2 (captionLabel title : String) (duration : ℚ)
    (captions : List Caption) (isLive : Bool) (startTime endTime : Option Int)
    (preview : Option String) :
    (∃ m, buildManifestJS captionLabel title duration [] captions isLive
        startTime endTime preview = some m ∧ m.1.streams = []) ∧
    (∀ tracks : List Track,
      buildManifestJS captionLabel title duration tracks captions isLive
          startTime endTime preview = none ↔
        ∃ t ∈ tracks, kindOf t ∈ objectProtoKeys) ∧
    (∀ tracks : List Track, tracks ≠ [] →
      (getPlayerAspectRatio tracks).isSome = true) := by
  refine ⟨⟨buildManifest captionLabel title duration [] captions isLive
      startTime endTime preview, rfl, rfl⟩, fun tracks => ?_, fun tracks h => ?_⟩
  · unfold buildManifestJS
    rw [Option.map_eq_none']
    exact tracksByKindJS_eq_none_iff tracks
  · cases tracks with
    | nil => exact absurd rfl h
    | cons t ts =>
      simp only [getPlayerAspectRatio]
      split <;> simp

/-- Witness for C2 at a concrete one-track list. -/
theorem claim_C2_witness :
    (getPlayerAspectRatio [⟨"u", "presenter", none, none, none⟩]).isSome = true :=
  (claim_C2 "" "" 0 [] false none none none).2.2
    [⟨"u", "presenter", none, none, none⟩] (by decide)

/-- Counterexample to C2 as stated: on an event with zero tracks,
`getPlayerAspectRatio` evaluates `tracks[0].resolution` with `tracks[0]`
`undefined` and throws a `TypeError` (embedded as `none`), so the
aspect-ratio computation performed by `InlinePlayer` does fail with a hard
error on this input. -/
theorem claim_C2_cex : getPlayerAspectRatio [] = none := rfl

/-- C9 (amended): for track lists on which the grouping loop does not throw,
when the tracks group into more than one kind group and none is named
`"presenter"`, the manifest builder deterministically marks the first stream
in `Object.entries` iteration order as the main-audio source and emits the
diagnostic (modelled by the boolean second component); that first stream is
the group of the first track encountered whenever no kind is an array-index
string, but array-index kinds are enumerated first in ascending numeric
order (see `claim_C9_cex`).  With at most one group or with a `"presenter"`
group, no diagnostic is emitted and no stream carries a role. -/
theorem claim_C9 (captionLabel title : String) (duration : ℚ)
    (tracks : List Track) (captions : List Caption) (isLive : Bool)
    (startTime endTime : Option Int) (preview : Option String)
    (hok : ∀ t ∈ tracks, kindOf t ∉ objectProtoKeys) :
    (1 < (tracksByKind tracks).length ∧
        "presenter" ∉ (tracksByKind tracks).map Prod.fst →
      ∃ m, buildManifestJS captionLabel title duration tracks captions isLive
          startTime endTime preview = some m ∧
        m.2 = true ∧
        ∃ s rest, m.1.streams = s :: rest ∧
          s.role = some "mainAudio" ∧ (∀ s2 ∈ rest, s2.role = none) ∧
          ∃ g0 gs, entriesOf (tracksByKind tracks) = g0 :: gs ∧
            s.content = g0.1 ∧
            ((∀ t ∈ tracks, isArrayIndexKey (kindOf t) = false) →
              ∃ t0 ts0, tracks = t0 :: ts0 ∧ s.content = kindOf t0)) ∧
    ((tracksByKind tracks).length ≤ 1 ∨
        "presenter" ∈ (tracksByKind tracks).map Prod.fst →
      ∃ m, buildManifestJS captionLabel title duration tracks captions isLive
          startTime endTime preview = some m ∧
        m.2 = false ∧ ∀ s ∈ m.1.streams, s.role = none) := by
  obtain ⟨i1, i2, i3, i4⟩ := groupingInv_tracksByKind tracks
  have hbm := buildManifestJS_of_ok captionLabel title duration captions
    isLive startTime endTime preview hok
  have hlenE : (entriesOf (tracksByKind tracks)).length =
      (tracksByKind tracks).length := (entriesOf_perm _).length_eq
  have hwarn : (buildManifest captionLabel title duration tracks captions
      isLive startTime endTime preview).2 =
      (decide (1 < (tracksByKind tracks).length) &&
        !((tracksByKind tracks).any fun g => g.1 == "presenter")) := by
    show (decide (1 < ((entriesOf (tracksByKind tracks)).map _).length)
      && _) = _
    rw [List.length_map, hlenE,
      show objectProtoKeys.contains "presenter" = false from by decide,
      Bool.or_false]
  have hstreams : (buildManifest captionLabel title duration tracks captions
      isLive startTime endTime preview).1.streams =
      (if (buildManifest captionLabel title duration tracks captions
          isLive startTime endTime preview).2 then
        markMainAudio ((entriesOf (tracksByKind tracks)).map fun g =>
          Stream.mk g.1 (tracksToPaellaSources g.2 isLive) none)
      else (entriesOf (tracksByKind tracks)).map fun g =>
        Stream.mk g.1 (tracksToPaellaSources g.2 isLive) none) := rfl
  have hany : ((tracksByKind tracks).any fun g => g.1 == "presenter") = true ↔
      "presenter" ∈ (tracksByKind tracks).map Prod.fst := by
    rw [List.any_eq_true]
    constructor
    · rintro ⟨g, hg, hgp⟩
      rw [beq_iff_eq] at hgp
      exact hgp ▸ List.mem_map_of_mem Prod.fst hg
    · intro hm
      rcases List.mem_map.mp hm with ⟨g, hg, hgp⟩
      exact ⟨g, hg, by simp [hgp]⟩
  constructor
  · rintro ⟨hlen, hpres⟩
    have ha : ((tracksByKind tracks).any fun g => g.1 == "presenter") = false := by
      cases hx : ((tracksByKind tracks).any fun g => g.1 == "presenter") with
      | false => rfl
      | true => exact absurd (hany.mp hx) hpres
    have hw : (buildManifest captionLabel title duration tracks captions
        isLive startTime endTime preview).2 = true := by
      rw [hwarn, ha]
      simp [hlen]
    refine ⟨_, hbm, hw, ?_⟩
    obtain ⟨g0, gs, hbk⟩ :
        ∃ g0 gs, entriesOf (tracksByKind tracks) = g0 :: gs := by
      cases he : entriesOf (tracksByKind tracks) with
      | nil =>
        exfalso
        rw [he] at hlenE
        simp at hlenE
        omega
      | cons g0 gs => exact ⟨g0, gs, rfl⟩
    refine ⟨{ Stream.mk g0.1 (tracksToPaellaSources g0.2 isLive) none
        with role := some "mainAudio" },
      gs.map fun g => Stream.mk g.1 (tracksToPaellaSources g.2 isLive) none,
      ?_, rfl, ?_, g0, gs, hbk, rfl, ?_⟩
    · rw [hstreams, hw, hbk]
      rfl
    · intro s2 hs2
      rcases List.mem_map.mp hs2 with ⟨g, -, rfl⟩
      rfl
    · intro hnoidx
      have hnone : ∀ g ∈ tracksByKind tracks, isArrayIndexKey g.1 = false := by
        intro g hg
        obtain ⟨t2, ht2, hk⟩ :=
          (i2 g.1).mp (List.mem_map_of_mem Prod.fst hg)
        rw [← hk]
        exact hnoidx t2 ht2
      rw [entriesOf_of_no_index _ hnone] at hbk
      have hmem : g0.1 ∈ (tracksByKind tracks).map Prod.fst := by
        rw [hbk]
        exact List.mem_map_of_mem Prod.fst (List.mem_cons_self g0 gs)
      obtain ⟨tx, htx, -⟩ := (i2 g0.1).mp hmem
      cases htr : tracks with
      | nil =>
        rw [htr] at htx
        exact absurd htx (List.not_mem_nil tx)
      | cons t0 ts0 =>
        refine ⟨t0, ts0, rfl, ?_⟩
        have hhead : ((tracksByKind tracks).map Prod.fst).head? =
            some (kindOf t0) := by
          rw [i4, htr]
          simp
        rw [hbk] at hhead
        simpa using hhead
  · intro hyp
    have hw : (buildManifest captionLabel title duration tracks captions
        isLive startTime endTime preview).2 = false := by
      rw [hwarn]
      rcases hyp with hlen | hpres
      · have hd : decide (1 < (tracksByKind tracks).length) = false := by
          simp
          omega
        rw [hd, Bool.false_and]
      · rw [hany.mpr hpres]
        simp
    refine ⟨_, hbm, hw, ?_⟩
    intro s hs
    rw [hstreams, hw] at hs
    simp only [Bool.false_eq_true, if_false] at hs
    rcases List.mem_map.mp hs with ⟨g, -, rfl⟩
    rfl

/-- Witness for C9: two tracks of kinds `"a"` and `"b"` (no `"presenter"`,
no collisions, no array-index kinds) trigger the diagnostic. -/
theorem claim_C9_witness :
    ∃ m, buildManifestJS "" "" 0 [⟨"u1", "a/x", none, none, none⟩,
        ⟨"u2", "b/y", none, none, none⟩] [] false none none none = some m ∧
      m.2 = true := by
  obtain ⟨m, hm, hw, -⟩ := (claim_C9 "" "" 0 [⟨"u1", "a/x", none, none, none⟩,
      ⟨"u2", "b/y", none, none, none⟩] [] false none none none
    (by decide)).1 ⟨by decide, by decide⟩
  exact ⟨m, hm, hw⟩

/-- Counterexample to C9 as stated: with flavors `"b/x"` then `"0/y"`, the
record's own keys are created in the order `"b", "0"`, but `Object.entries`
enumerates the array-index key `"0"` first, so the stream marked as main
audio has content `"0"` — not `"b"`, the kind of the first track
encountered. -/
theorem claim_C9_cex :
    ((buildManifestJS "" "" 0 [⟨"u1", "b/x", none, none, none⟩,
        ⟨"u2", "0/y", none, none, none⟩] [] false none none none).map
      fun m => m.1.streams.map fun s => (s.content, s.role)) =
      some [("0", some "mainAudio"), ("b", none)] ∧
    kindOf ⟨"u1", "b/x", none, none, none⟩ = "b" ∧ ("0" : String) ≠ "b" := by
  refine ⟨by decide, by decide, by decide⟩

end PaellaSpec
